import Mathlib

/-!
Verification of the DCT engine specified for `src/Maths/signal_transform/sample.py`.

The script delegates the transform to `sc.fft.dct(x, type=2)` on `x = np.arange(8192)`;
the engine itself (forward DCT-II, inverse DCT-III, normalization, input validation)
is not part of the repository sources, so it is modelled here from the spec.
-/

open Real

/-- Modelled from the spec: the normalization mode of the DCT engine,
"enumerated \x7bnone, orthonormal\x7d", missing from `src/` (the script calls the
library transform with its default, unnormalized convention). -/
inductive Normalization
  | none
  | orthonormal
deriving DecidableEq

/-- An input element as the spec sees it: a finite real number, or one of the
non-finite IEEE values (NaN, +∞, -∞) that the engine must reject. -/
inductive RVal
  | fin (x : ℝ)
  | nan
  | posInf
  | negInf

/-- Whether an input element is a finite real. -/
def RVal.isFinite : RVal → Bool
  | .fin _ => true
  | _ => false

/-- The real value of a finite input element (junk value 0 on non-finite inputs,
which the engine rejects before ever reading values). -/
noncomputable def RVal.toReal : RVal → ℝ
  | .fin x => x
  | _ => 0

/-- Modelled from the spec: the error taxonomy, "InvalidInput (empty sequence, or
non-finite element)", missing from `src/`. -/
inductive DCTError
  | InvalidInput
deriving DecidableEq

/-- Modelled from the spec: input validation, missing from `src/` — a sequence is a
valid transform input when it is non-empty and every element is finite. -/
def validInput (s : List RVal) : Bool :=
  !s.isEmpty && s.all RVal.isFinite

/-- The angle π · k · (2n + 1) / (2N) appearing in both the forward (DCT-II)
and inverse (DCT-III) formulas of the spec. -/
noncomputable def dctAngle (N k n : ℕ) : ℝ :=
  π * k * (2 * n + 1) / (2 * N)

/-- Modelled from the spec: the unnormalized forward DCT-II kernel, missing from
`src/` (the script calls `sc.fft.dct(x, type=2)`):
transformed[k] = 2 · Σ_n sequence[n] · cos( π · k · (2n + 1) / (2N) ). -/
noncomputable def forwardCore (x : List ℝ) : List ℝ :=
  (List.range x.length).map fun k =>
    2 * ∑ n ∈ Finset.range x.length, x.getD n 0 * Real.cos (dctAngle x.length k n)

/-- Modelled from the spec: the orthonormal scale factor applied by `forward` —
1/√(4N) at index 0 and 1/√(2N) at every index k > 0. -/
noncomputable def orthScale (N k : ℕ) : ℝ :=
  if k = 0 then 1 / Real.sqrt (4 * N) else 1 / Real.sqrt (2 * N)

/-- Modelled from the spec: the scaling `forward` applies to its output for the
given normalization mode (none: unscaled; orthonormal: `orthScale`). -/
noncomputable def applyNorm (m : Normalization) (y : List ℝ) : List ℝ :=
  match m with
  | .none => y
  | .orthonormal => (List.range y.length).map fun k => orthScale y.length k * y.getD k 0

/-- Modelled from the spec: the inverse of whatever scaling `forward` applied for
the given normalization mode, applied by `inverse` to its input. -/
noncomputable def undoNorm (m : Normalization) (y : List ℝ) : List ℝ :=
  match m with
  | .none => y
  | .orthonormal => (List.range y.length).map fun k => y.getD k 0 / orthScale y.length k

/-- Modelled from the spec: the inverse DCT-III kernel, missing from `src/`:
transformed[n] = sequence[0]/2 + Σ_\x7bk=1\x7d^\x7bN-1\x7d sequence[k] · cos( π · k · (2n+1) / (2N) ). -/
noncomputable def inverseCore (y : List ℝ) : List ℝ :=
  (List.range y.length).map fun n =>
    y.getD 0 0 / 2 + ∑ k ∈ Finset.Ico 1 y.length, y.getD k 0 * Real.cos (dctAngle y.length k n)

/-- Modelled from the spec: `forward(sequence, normalization)`, missing from `src/` —
validates the input, computes the DCT-II kernel and applies the normalization scaling. -/
noncomputable def forward (s : List RVal) (m : Normalization) : Except DCTError (List ℝ) :=
  if validInput s then .ok (applyNorm m (forwardCore (s.map RVal.toReal)))
  else .error DCTError.InvalidInput

/-- Modelled from the spec: `inverse(sequence, normalization)`, missing from `src/` —
validates the input, undoes the forward scaling for the mode, and computes the
DCT-III kernel. -/
noncomputable def inverse (s : List RVal) (m : Normalization) : Except DCTError (List ℝ) :=
  if validInput s then .ok (inverseCore (undoNorm m (s.map RVal.toReal)))
  else .error DCTError.InvalidInput

/-- View of a list of plain reals as a (finite-valued) engine input. -/
noncomputable def finList (x : List ℝ) : List RVal := x.map RVal.fin

/-- From `src/Maths/signal_transform/sample.py`, line 4: the script's fixed input
`np.arange(8192)`, the integers 0, 1, …, 8191. -/
noncomputable def scriptInput : List RVal :=
  (List.range 8192).map fun n : ℕ => RVal.fin (n : ℝ)

/-- Elementwise relative-tolerance approximation used by the spec's round-trip
property ("within 1e-9 relative tolerance"). -/
def approxRel (a b : ℝ) : Prop := |a - b| ≤ 1e-9 * |b|

/-! ### List indexing helpers -/

lemma getD_map_range (N : ℕ) (f : ℕ → ℝ) (k : ℕ) (hk : k < N) :
    ((List.range N).map f).getD k 0 = f k := by
  rw [List.getD_eq_getElem?_getD, List.getElem?_map, List.getElem?_range hk]
  rfl

lemma forwardCore_length (x : List ℝ) : (forwardCore x).length = x.length := by
  simp [forwardCore]

lemma inverseCore_length (y : List ℝ) : (inverseCore y).length = y.length := by
  simp [inverseCore]

lemma applyNorm_length (m : Normalization) (y : List ℝ) : (applyNorm m y).length = y.length := by
  cases m <;> simp [applyNorm]

lemma undoNorm_length (m : Normalization) (y : List ℝ) : (undoNorm m y).length = y.length := by
  cases m <;> simp [undoNorm]

lemma forwardCore_getD (x : List ℝ) (k : ℕ) (hk : k < x.length) :
    (forwardCore x).getD k 0
      = 2 * ∑ n ∈ Finset.range x.length, x.getD n 0 * Real.cos (dctAngle x.length k n) := by
  rw [forwardCore]
  exact getD_map_range _ _ k hk

lemma inverseCore_getD (y : List ℝ) (n : ℕ) (hn : n < y.length) :
    (inverseCore y).getD n 0
      = y.getD 0 0 / 2
        + ∑ k ∈ Finset.Ico 1 y.length, y.getD k 0 * Real.cos (dctAngle y.length k n) := by
  rw [inverseCore]
  exact getD_map_range _ _ n hn

/-! ### Validation -/

lemma validInput_iff (s : List RVal) :
    validInput s = true ↔ s ≠ [] ∧ ∀ v ∈ s, v.isFinite = true := by
  rw [validInput]
  simp [List.isEmpty_iff, List.all_eq_true]

lemma forward_ok_of_valid (s : List RVal) (m : Normalization) (h : validInput s = true) :
    forward s m = .ok (applyNorm m (forwardCore (s.map RVal.toReal))) := by
  rw [forward, if_pos h]

lemma inverse_ok_of_valid (s : List RVal) (m : Normalization) (h : validInput s = true) :
    inverse s m = .ok (inverseCore (undoNorm m (s.map RVal.toReal))) := by
  rw [inverse, if_pos h]

lemma validInput_finList (x : List ℝ) (hx : x ≠ []) : validInput (finList x) = true := by
  rw [validInput_iff]
  constructor
  · simp [finList, hx]
  · intro v hv
    rcases List.mem_map.mp hv with ⟨a, _, rfl⟩
    rfl

lemma finList_map_toReal (x : List ℝ) : (finList x).map RVal.toReal = x := by
  have hc : RVal.toReal ∘ RVal.fin = id := funext fun a => rfl
  rw [finList, List.map_map, hc, List.map_id]

lemma finList_length (x : List ℝ) : (finList x).length = x.length := by
  simp [finList]

/-! ### Trigonometric sum machinery -/

lemma sum_cos_telescope (θ : ℝ) (N : ℕ) (h : Real.sin (θ / 2) ≠ 0) :
    ∑ k ∈ Finset.range N, Real.cos (k * θ)
      = (Real.sin (N * θ - θ / 2) + Real.sin (θ / 2)) / (2 * Real.sin (θ / 2)) := by
  have key : ∀ k : ℕ, Real.sin (((k : ℝ) + 1) * θ - θ / 2) - Real.sin (k * θ - θ / 2)
      = 2 * Real.sin (θ / 2) * Real.cos (k * θ) := by
    intro k
    rw [Real.sin_sub_sin]
    have e1 : (((k : ℝ) + 1) * θ - θ / 2 - ((k : ℝ) * θ - θ / 2)) / 2 = θ / 2 := by ring
    have e2 : (((k : ℝ) + 1) * θ - θ / 2 + ((k : ℝ) * θ - θ / 2)) / 2 = (k : ℝ) * θ := by ring
    rw [e1, e2]
  have tele : ∑ k ∈ Finset.range N,
      (Real.sin (((k : ℕ) + 1 : ℕ) * θ - θ / 2) - Real.sin ((k : ℕ) * θ - θ / 2))
      = Real.sin ((N : ℝ) * θ - θ / 2) - Real.sin (((0 : ℕ) : ℝ) * θ - θ / 2) := by
    have := Finset.sum_range_sub (fun k : ℕ => Real.sin ((k : ℝ) * θ - θ / 2)) N
    simpa using this
  have lhs : ∑ k ∈ Finset.range N,
      (Real.sin (((k : ℕ) + 1 : ℕ) * θ - θ / 2) - Real.sin ((k : ℕ) * θ - θ / 2))
      = 2 * Real.sin (θ / 2) * ∑ k ∈ Finset.range N, Real.cos (k * θ) := by
    rw [Finset.mul_sum]
    refine Finset.sum_congr rfl fun k _ => ?_
    push_cast
    exact key k
  rw [lhs] at tele
  have h0 : Real.sin (((0 : ℕ) : ℝ) * θ - θ / 2) = -Real.sin (θ / 2) := by
    norm_num
  rw [h0] at tele
  rw [eq_div_iff (mul_ne_zero two_ne_zero h)]
  linarith [tele]

lemma sum_cos_int_odd (N : ℕ) (hN : 0 < N) (j : ℤ) (hj : Odd j) :
    ∑ k ∈ Finset.range N, Real.cos (π * j * k / N) = 1 := by
  have hNne : (N : ℝ) ≠ 0 := Nat.cast_ne_zero.mpr hN.ne'
  set θ : ℝ := π * j / N with hθ
  have hsin : Real.sin (θ / 2) ≠ 0 := by
    intro h0
    rcases Real.sin_eq_zero_iff.mp h0 with ⟨n, hn⟩
    rw [hθ] at hn
    have h1 : π * (2 * N * n) = π * j := by
      field_simp at hn
      linear_combination hn
    have h2 : (2 * N * n : ℝ) = (j : ℝ) := mul_left_cancel₀ Real.pi_ne_zero h1
    have h3 : (2 * (N : ℤ) * n) = j := by exact_mod_cast h2
    have : Even j := ⟨(N : ℤ) * n, by linarith [h3]⟩
    exact (Int.not_odd_iff_even.mpr this) hj
  have harg : ∀ k : ℕ, π * j * k / N = k * θ := by
    intro k; rw [hθ]; ring
  calc ∑ k ∈ Finset.range N, Real.cos (π * j * k / N)
      = ∑ k ∈ Finset.range N, Real.cos (k * θ) :=
        Finset.sum_congr rfl fun k _ => by rw [harg]
    _ = (Real.sin (N * θ - θ / 2) + Real.sin (θ / 2)) / (2 * Real.sin (θ / 2)) :=
        sum_cos_telescope θ N hsin
    _ = 1 := by
        have hNθ : (N : ℝ) * θ - θ / 2 = j * π - θ / 2 := by
          rw [hθ]; field_simp; ring
        rw [hNθ, Real.sin_int_mul_pi_sub, Odd.neg_one_zpow hj]
        rw [div_eq_one_iff_eq (mul_ne_zero two_ne_zero hsin)]
        ring

lemma sum_cos_int_even (N : ℕ) (hN : 0 < N) (j : ℤ) (hj : Even j)
    (hnd : ¬ ((2 * (N : ℤ)) ∣ j)) :
    ∑ k ∈ Finset.range N, Real.cos (π * j * k / N) = 0 := by
  have hNne : (N : ℝ) ≠ 0 := Nat.cast_ne_zero.mpr hN.ne'
  set θ : ℝ := π * j / N with hθ
  have hsin : Real.sin (θ / 2) ≠ 0 := by
    intro h0
    rcases Real.sin_eq_zero_iff.mp h0 with ⟨n, hn⟩
    rw [hθ] at hn
    have h1 : π * (2 * N * n) = π * j := by
      field_simp at hn
      linear_combination hn
    have h2 : (2 * N * n : ℝ) = (j : ℝ) := mul_left_cancel₀ Real.pi_ne_zero h1
    have h3 : (2 * (N : ℤ) * n) = j := by exact_mod_cast h2
    exact hnd ⟨n, by linarith [h3]⟩
  have harg : ∀ k : ℕ, π * j * k / N = k * θ := by
    intro k; rw [hθ]; ring
  calc ∑ k ∈ Finset.range N, Real.cos (π * j * k / N)
      = ∑ k ∈ Finset.range N, Real.cos (k * θ) :=
        Finset.sum_congr rfl fun k _ => by rw [harg]
    _ = (Real.sin (N * θ - θ / 2) + Real.sin (θ / 2)) / (2 * Real.sin (θ / 2)) :=
        sum_cos_telescope θ N hsin
    _ = 0 := by
        have hNθ : (N : ℝ) * θ - θ / 2 = j * π - θ / 2 := by
          rw [hθ]; field_simp; ring
        rw [hNθ, Real.sin_int_mul_pi_sub, Even.neg_one_zpow hj]
        simp

lemma sum_cos_int_dvd (N : ℕ) (hN : 0 < N) (j : ℤ) (hd : (2 * (N : ℤ)) ∣ j) :
    ∑ k ∈ Finset.range N, Real.cos (π * j * k / N) = N := by
  have hNne : (N : ℝ) ≠ 0 := Nat.cast_ne_zero.mpr hN.ne'
  obtain ⟨l, hl⟩ := hd
  have : ∀ k ∈ Finset.range N, Real.cos (π * j * k / N) = 1 := by
    intro k _
    have harg : π * j * k / N = (k * l : ℤ) * (2 * π) := by
      subst hl; push_cast; field_simp; ring
    rw [harg, Real.cos_int_mul_two_pi]
  rw [Finset.sum_congr rfl this]
  simp

lemma sum_cos_half_shift (θ : ℝ) (N : ℕ) (h : Real.sin (θ / 2) ≠ 0) :
    ∑ n ∈ Finset.range N, Real.cos (n * θ + θ / 2)
      = Real.sin (N * θ) / (2 * Real.sin (θ / 2)) := by
  have key : ∀ n : ℕ, Real.sin (((n : ℝ) + 1) * θ) - Real.sin ((n : ℝ) * θ)
      = 2 * Real.sin (θ / 2) * Real.cos ((n : ℝ) * θ + θ / 2) := by
    intro n
    rw [Real.sin_sub_sin]
    have e1 : (((n : ℝ) + 1) * θ - (n : ℝ) * θ) / 2 = θ / 2 := by ring
    have e2 : (((n : ℝ) + 1) * θ + (n : ℝ) * θ) / 2 = (n : ℝ) * θ + θ / 2 := by ring
    rw [e1, e2]
  have tele : ∑ n ∈ Finset.range N,
      (Real.sin (((n : ℕ) + 1 : ℕ) * θ) - Real.sin ((n : ℕ) * θ))
      = Real.sin ((N : ℝ) * θ) - Real.sin (((0 : ℕ) : ℝ) * θ) := by
    simpa using Finset.sum_range_sub (fun n : ℕ => Real.sin ((n : ℝ) * θ)) N
  have lhs : ∑ n ∈ Finset.range N,
      (Real.sin (((n : ℕ) + 1 : ℕ) * θ) - Real.sin ((n : ℕ) * θ))
      = 2 * Real.sin (θ / 2) * ∑ n ∈ Finset.range N, Real.cos (n * θ + θ / 2) := by
    rw [Finset.mul_sum]
    refine Finset.sum_congr rfl fun n _ => ?_
    push_cast
    exact key n
  rw [lhs] at tele
  have h0 : Real.sin (((0 : ℕ) : ℝ) * θ) = 0 := by norm_num
  rw [h0] at tele
  rw [eq_div_iff (mul_ne_zero two_ne_zero h)]
  linarith [tele]

lemma sum_cos_dctAngle_eq_zero (N k : ℕ) (hN : 0 < N) (hk : 0 < k) (hk2 : k < 2 * N) :
    ∑ n ∈ Finset.range N, Real.cos (dctAngle N k n) = 0 := by
  have hNne : (N : ℝ) ≠ 0 := Nat.cast_ne_zero.mpr hN.ne'
  have hk' : (0 : ℝ) < k := by exact_mod_cast hk
  have hN' : (0 : ℝ) < N := by exact_mod_cast hN
  set θ : ℝ := π * k / N with hθ
  have hpos : 0 < θ / 2 := by
    rw [hθ]
    exact div_pos (div_pos (mul_pos Real.pi_pos hk') hN') two_pos
  have hlt : θ / 2 < π := by
    rw [hθ, div_div, div_lt_iff₀ (by positivity)]
    have hk2' : (k : ℝ) < 2 * N := by exact_mod_cast hk2
    nlinarith [Real.pi_pos]
  have hsin : Real.sin (θ / 2) ≠ 0 := ne_of_gt (Real.sin_pos_of_pos_of_lt_pi hpos hlt)
  have harg : ∀ n : ℕ, dctAngle N k n = n * θ + θ / 2 := by
    intro n
    rw [dctAngle, hθ]
    field_simp
    ring
  have hcongr : ∑ n ∈ Finset.range N, Real.cos (dctAngle N k n)
      = ∑ n ∈ Finset.range N, Real.cos (n * θ + θ / 2) :=
    Finset.sum_congr rfl fun n _ => by rw [harg]
  rw [hcongr, sum_cos_half_shift θ N hsin]
  have hNθ : (N : ℝ) * θ = (k : ℝ) * π := by
    rw [hθ]; field_simp; ring
  rw [hNθ, Real.sin_nat_mul_pi]
  simp

lemma dct_orthogonality (N m n : ℕ) (hN : 0 < N) (hm : m < N) (hn : n < N) :
    1 + 2 * ∑ k ∈ Finset.Ico 1 N, Real.cos (dctAngle N k m) * Real.cos (dctAngle N k n)
      = if m = n then (N : ℝ) else 0 := by
  have hNne : (N : ℝ) ≠ 0 := Nat.cast_ne_zero.mpr hN.ne'
  have hterm : ∀ k : ℕ, 2 * (Real.cos (dctAngle N k m) * Real.cos (dctAngle N k n))
      = Real.cos (π * (((m : ℤ) + n + 1) : ℤ) * k / N)
        + Real.cos (π * (((m : ℤ) - n) : ℤ) * k / N) := by
    intro k
    have hadd : dctAngle N k m + dctAngle N k n = π * (((m : ℤ) + n + 1) : ℤ) * k / N := by
      rw [dctAngle, dctAngle]
      push_cast
      field_simp
      ring
    have hsub : dctAngle N k m - dctAngle N k n = π * (((m : ℤ) - n) : ℤ) * k / N := by
      rw [dctAngle, dctAngle]
      push_cast
      field_simp
      ring
    rw [← hadd, ← hsub, Real.cos_add, Real.cos_sub]
    ring
  have hsum : 2 * ∑ k ∈ Finset.Ico 1 N, Real.cos (dctAngle N k m) * Real.cos (dctAngle N k n)
      = (∑ k ∈ Finset.Ico 1 N, Real.cos (π * (((m : ℤ) + n + 1) : ℤ) * k / N))
        + ∑ k ∈ Finset.Ico 1 N, Real.cos (π * (((m : ℤ) - n) : ℤ) * k / N) := by
    rw [Finset.mul_sum, ← Finset.sum_add_distrib]
    exact Finset.sum_congr rfl fun k _ => hterm k
  have hsplit : ∀ j : ℤ, ∑ k ∈ Finset.Ico 1 N, Real.cos (π * j * k / N)
      = (∑ k ∈ Finset.range N, Real.cos (π * j * k / N)) - 1 := by
    intro j
    have h0 : Real.cos (π * j * (0 : ℕ) / N) = 1 := by
      norm_num
    rw [Finset.range_eq_Ico, Finset.sum_eq_sum_Ico_succ_bot hN
      (fun k : ℕ => Real.cos (π * j * k / N)), h0]
    ring
  rw [hsum, hsplit, hsplit]
  rcases eq_or_ne m n with hmn | hmn
  · subst hmn
    rw [if_pos rfl]
    have hodd : Odd ((m : ℤ) + m + 1) := ⟨m, by ring⟩
    have h1 : ∑ k ∈ Finset.range N, Real.cos (π * (((m : ℤ) + m + 1) : ℤ) * k / N) = 1 :=
      sum_cos_int_odd N hN _ hodd
    have h2 : ∑ k ∈ Finset.range N, Real.cos (π * (((m : ℤ) - m) : ℤ) * k / N) = N := by
      have : ((m : ℤ) - m) = 0 := by ring
      rw [this]
      exact sum_cos_int_dvd N hN 0 (dvd_zero _)
    rw [h1, h2]
    ring
  · rw [if_neg hmn]
    have hmn' : (m : ℤ) ≠ (n : ℤ) := by exact_mod_cast hmn
    rcases Int.even_or_odd ((m : ℤ) + n + 1) with he | ho
    · obtain ⟨t, ht⟩ := he
      have hodd2 : Odd ((m : ℤ) - n) := ⟨(m : ℤ) - t, by omega⟩
      have h2 : ∑ k ∈ Finset.range N, Real.cos (π * (((m : ℤ) - n) : ℤ) * k / N) = 1 :=
        sum_cos_int_odd N hN _ hodd2
      have hnd : ¬ ((2 * (N : ℤ)) ∣ ((m : ℤ) + n + 1)) := by
        intro hdvd
        have hpos1 : (0 : ℤ) < (m : ℤ) + n + 1 := by positivity
        have hle := Int.le_of_dvd hpos1 hdvd
        have hm' : (m : ℤ) < N := by exact_mod_cast hm
        have hn' : (n : ℤ) < N := by exact_mod_cast hn
        omega
      have h1 : ∑ k ∈ Finset.range N, Real.cos (π * (((m : ℤ) + n + 1) : ℤ) * k / N) = 0 :=
        sum_cos_int_even N hN _ ⟨t, ht⟩ hnd
      rw [h1, h2]
      ring
    · obtain ⟨t, ht⟩ := ho
      have heven2 : Even ((m : ℤ) - n) := ⟨(m : ℤ) - t, by omega⟩
      have h1 : ∑ k ∈ Finset.range N, Real.cos (π * (((m : ℤ) + n + 1) : ℤ) * k / N) = 1 :=
        sum_cos_int_odd N hN _ ⟨t, ht⟩
      have hnd : ¬ ((2 * (N : ℤ)) ∣ ((m : ℤ) - n)) := by
        intro hdvd
        have hne0 : ((m : ℤ) - n) ≠ 0 := sub_ne_zero.mpr hmn'
        have habs : (2 * (N : ℤ)) ≤ |(m : ℤ) - n| :=
          Int.le_of_dvd (abs_pos.mpr hne0) ((dvd_abs _ _).mpr hdvd)
        have hm' : (m : ℤ) < N := by exact_mod_cast hm
        have hn' : (n : ℤ) < N := by exact_mod_cast hn
        have : |(m : ℤ) - n| < N := by
          rw [abs_sub_lt_iff]
          omega
        omega
      have h2 : ∑ k ∈ Finset.range N, Real.cos (π * (((m : ℤ) - n) : ℤ) * k / N) = 0 :=
        sum_cos_int_even N hN _ heven2 hnd
      rw [h1, h2]
      ring


lemma inverseCore_forwardCore (x : List ℝ) (hx : 0 < x.length) :
    inverseCore (forwardCore x)
      = (List.range x.length).map fun n => (x.length : ℝ) * x.getD n 0 := by
  have hlen := forwardCore_length x
  rw [inverseCore, hlen]
  refine List.map_congr_left fun n hn => ?_
  have hn' : n < x.length := List.mem_range.mp hn
  have h0' : (forwardCore x).getD 0 0 = 2 * ∑ m ∈ Finset.range x.length, x.getD m 0 := by
    rw [forwardCore_getD x 0 hx]
    congr 1
    refine Finset.sum_congr rfl fun m _ => ?_
    have : dctAngle x.length 0 m = 0 := by simp [dctAngle]
    rw [this, Real.cos_zero, mul_one]
  have hk : ∀ k ∈ Finset.Ico 1 x.length,
      (forwardCore x).getD k 0 * Real.cos (dctAngle x.length k n)
      = ∑ m ∈ Finset.range x.length, x.getD m 0
          * (2 * (Real.cos (dctAngle x.length k m) * Real.cos (dctAngle x.length k n))) := by
    intro k hkmem
    have hklt : k < x.length := (Finset.mem_Ico.mp hkmem).2
    rw [forwardCore_getD x k hklt, Finset.mul_sum, Finset.sum_mul]
    exact Finset.sum_congr rfl fun m _ => by ring
  have hsum2 : ∑ k ∈ Finset.Ico 1 x.length,
      (forwardCore x).getD k 0 * Real.cos (dctAngle x.length k n)
      = ∑ m ∈ Finset.range x.length, x.getD m 0
          * (2 * ∑ k ∈ Finset.Ico 1 x.length,
              Real.cos (dctAngle x.length k m) * Real.cos (dctAngle x.length k n)) := by
    have e := Finset.sum_congr rfl hk
    rw [e, Finset.sum_comm]
    refine Finset.sum_congr rfl fun m _ => ?_
    rw [Finset.mul_sum, Finset.mul_sum]
  have hcomb : ∑ m ∈ Finset.range x.length, x.getD m 0
        * (1 + 2 * ∑ k ∈ Finset.Ico 1 x.length,
            Real.cos (dctAngle x.length k m) * Real.cos (dctAngle x.length k n))
      = (2 * ∑ m ∈ Finset.range x.length, x.getD m 0) / 2
        + ∑ m ∈ Finset.range x.length, x.getD m 0
            * (2 * ∑ k ∈ Finset.Ico 1 x.length,
                Real.cos (dctAngle x.length k m) * Real.cos (dctAngle x.length k n)) := by
    have e : ∀ m ∈ Finset.range x.length, x.getD m 0
          * (1 + 2 * ∑ k ∈ Finset.Ico 1 x.length,
              Real.cos (dctAngle x.length k m) * Real.cos (dctAngle x.length k n))
        = x.getD m 0 + x.getD m 0
            * (2 * ∑ k ∈ Finset.Ico 1 x.length,
                Real.cos (dctAngle x.length k m) * Real.cos (dctAngle x.length k n)) :=
      fun m _ => by ring
    rw [Finset.sum_congr rfl e, Finset.sum_add_distrib]
    ring
  rw [h0', hsum2, ← hcomb]
  have horth : ∀ m ∈ Finset.range x.length, x.getD m 0
        * (1 + 2 * ∑ k ∈ Finset.Ico 1 x.length,
            Real.cos (dctAngle x.length k m) * Real.cos (dctAngle x.length k n))
      = if m = n then x.getD m 0 * x.length else 0 := by
    intro m hm
    rw [dct_orthogonality x.length m n hx (List.mem_range.mp hm) hn']
    split_ifs with h
    · ring
    · ring
  rw [Finset.sum_congr rfl horth, Finset.sum_ite_eq' (Finset.range x.length) n
    (fun m => x.getD m 0 * x.length), if_pos (Finset.mem_range.mpr hn')]
  ring

/-! ### Engine-level helpers -/

lemma dctAngle_zero_k (N n : ℕ) : dctAngle N 0 n = 0 := by
  simp [dctAngle]

lemma validInput_eq_false_iff (s : List RVal) :
    validInput s = false ↔ (s = [] ∨ ∃ v ∈ s, v.isFinite = false) := by
  constructor
  · intro h
    by_cases hs : s = []
    · exact Or.inl hs
    · right
      by_contra hno
      push_neg at hno
      have hall : ∀ v ∈ s, v.isFinite = true := by
        intro v hv
        have := hno v hv
        revert this
        cases v.isFinite <;> simp
      have := (validInput_iff s).mpr ⟨hs, hall⟩
      rw [this] at h
      cases h
  · intro h
    by_contra hne
    have htrue : validInput s = true := by
      revert hne
      cases validInput s <;> simp
    rcases (validInput_iff s).mp htrue with ⟨hs, hall⟩
    rcases h with h | ⟨v, hv, hfin⟩
    · exact hs h
    · rw [hall v hv] at hfin
      cases hfin

lemma forwardCore_singleton (c : ℝ) : forwardCore [c] = [2 * c] := by
  rw [forwardCore]
  rw [show [c].length = 1 from rfl, show List.range 1 = [0] from rfl]
  simp [Finset.sum_range_one, dctAngle]

lemma forward_singleton (c : ℝ) : forward [RVal.fin c] Normalization.none = .ok [2 * c] := by
  rw [forward_ok_of_valid [RVal.fin c] Normalization.none rfl]
  rw [show [RVal.fin c].map RVal.toReal = [c] from rfl, forwardCore_singleton]
  rfl

/-- Claim C1: for every input sequence of N ≥ 1 finite real numbers and
normalization mode none, `forward` returns a sequence whose k-th element, for
each k < N, equals 2 · Σ over n < N of sequence[n] · cos( π · k · (2n + 1) / (2N) ). -/
theorem forward_none_formula (x : List ℝ) (hx : x ≠ []) :
    ∃ y, forward (finList x) Normalization.none = .ok y ∧ y.length = x.length ∧
      ∀ k, k < x.length → y.getD k 0
        = 2 * ∑ n ∈ Finset.range x.length,
            x.getD n 0 * Real.cos (π * k * (2 * n + 1) / (2 * x.length)) := by
  refine ⟨forwardCore x, ?_, forwardCore_length x, ?_⟩
  · rw [forward_ok_of_valid _ _ (validInput_finList x hx), finList_map_toReal]
    rfl
  · intro k hk
    rw [forwardCore_getD x k hk]
    rfl

/-- Witness for C1 at the concrete input [5]. -/
theorem forward_none_formula_witness :
    ∃ y, forward (finList [(5 : ℝ)]) Normalization.none = .ok y
      ∧ y.length = [(5 : ℝ)].length ∧
      ∀ k, k < [(5 : ℝ)].length → y.getD k 0
        = 2 * ∑ n ∈ Finset.range [(5 : ℝ)].length,
            [(5 : ℝ)].getD n 0 * Real.cos (π * k * (2 * n + 1) / (2 * [(5 : ℝ)].length)) :=
  forward_none_formula [(5 : ℝ)] (by simp)

/-- Claim C4: for every input and mode, an `ok` result of `forward` or `inverse`
has the same length as the input. -/
theorem output_length_eq_input_length (s : List RVal) (m : Normalization) (y : List ℝ) :
    (forward s m = .ok y → y.length = s.length)
    ∧ (inverse s m = .ok y → y.length = s.length) := by
  constructor
  · intro h
    rw [forward] at h
    by_cases hv : validInput s
    · rw [if_pos hv] at h
      injection h with h
      rw [← h, applyNorm_length, forwardCore_length, List.length_map]
    · rw [if_neg hv] at h
      cases h
  · intro h
    rw [inverse] at h
    by_cases hv : validInput s
    · rw [if_pos hv] at h
      injection h with h
      rw [← h, inverseCore_length, undoNorm_length, List.length_map]
    · rw [if_neg hv] at h
      cases h

/-- Witness for C4: the single-element input [5] maps to the single-element
output [10]. -/
theorem output_length_eq_input_length_witness : [(10 : ℝ)].length = [RVal.fin 5].length :=
  (output_length_eq_input_length [RVal.fin 5] Normalization.none [(10 : ℝ)]).1
    (by rw [forward_singleton]; norm_num)

/-- Claim C9: at the length boundary, `forward([], none)` fails with InvalidInput
and `forward([5], none) = [10]`. -/
theorem forward_boundary_values :
    forward [] Normalization.none = .error DCTError.InvalidInput
    ∧ forward [RVal.fin 5] Normalization.none = .ok [10] := by
  constructor
  · rfl
  · rw [forward_singleton]
    norm_num

/-- Claim C3: `forward` and `inverse` fail, and fail with InvalidInput, exactly
when the input is empty or contains a non-finite element; otherwise they return a
full output sequence (of the input's length), and a call never yields both an
output and an error. -/
theorem error_exactly_on_invalid (s : List RVal) (m : Normalization) :
    ((∃ e, forward s m = .error e) ↔ (s = [] ∨ ∃ v ∈ s, v.isFinite = false))
    ∧ ((∃ e, inverse s m = .error e) ↔ (s = [] ∨ ∃ v ∈ s, v.isFinite = false))
    ∧ (∀ e, forward s m = .error e → e = DCTError.InvalidInput)
    ∧ (∀ e, inverse s m = .error e → e = DCTError.InvalidInput)
    ∧ ((∃ y, forward s m = .ok y ∧ y.length = s.length) ∨ ∃ e, forward s m = .error e)
    ∧ ((∃ y, inverse s m = .ok y ∧ y.length = s.length) ∨ ∃ e, inverse s m = .error e)
    ∧ ¬ ((∃ y, forward s m = .ok y) ∧ ∃ e, forward s m = .error e)
    ∧ ¬ ((∃ y, inverse s m = .ok y) ∧ ∃ e, inverse s m = .error e) := by
  by_cases hv : validInput s = true
  · have hnot : ¬ (s = [] ∨ ∃ v ∈ s, v.isFinite = false) := by
      intro hbad
      have := (validInput_eq_false_iff s).mpr hbad
      rw [hv] at this
      cases this
    have hfwd := forward_ok_of_valid s m hv
    have hinv := inverse_ok_of_valid s m hv
    refine ⟨?_, ?_, ?_, ?_, ?_, ?_, ?_, ?_⟩
    · constructor
      · rintro ⟨e, he⟩
        rw [hfwd] at he
        cases he
      · intro h
        exact absurd h hnot
    · constructor
      · rintro ⟨e, he⟩
        rw [hinv] at he
        cases he
      · intro h
        exact absurd h hnot
    · intro e he
      rw [hfwd] at he
    · intro e he
      rw [hinv] at he
    · exact Or.inl ⟨_, hfwd, by rw [applyNorm_length, forwardCore_length, List.length_map]⟩
    · exact Or.inl ⟨_, hinv, by rw [inverseCore_length, undoNorm_length, List.length_map]⟩
    · rintro ⟨⟨y, hy⟩, ⟨e, he⟩⟩
      rw [hfwd] at hy he
      cases he
    · rintro ⟨⟨y, hy⟩, ⟨e, he⟩⟩
      rw [hinv] at hy he
      cases he
  · have hv' : validInput s = false := by
      revert hv
      cases validInput s <;> simp
    have hbad : s = [] ∨ ∃ v ∈ s, v.isFinite = false := (validInput_eq_false_iff s).mp hv'
    have hfwd : forward s m = .error DCTError.InvalidInput := by
      rw [forward, if_neg hv]
    have hinv : inverse s m = .error DCTError.InvalidInput := by
      rw [inverse, if_neg hv]
    refine ⟨?_, ?_, ?_, ?_, ?_, ?_, ?_, ?_⟩
    · exact ⟨fun _ => hbad, fun _ => ⟨_, hfwd⟩⟩
    · exact ⟨fun _ => hbad, fun _ => ⟨_, hinv⟩⟩
    · intro e he
      rw [hfwd] at he
    · intro e he
      rw [hinv] at he
    · exact Or.inr ⟨_, hfwd⟩
    · exact Or.inr ⟨_, hinv⟩
    · rintro ⟨⟨y, hy⟩, -⟩
      rw [hfwd] at hy
      cases hy
    · rintro ⟨⟨y, hy⟩, -⟩
      rw [hinv] at hy
      cases hy

/-- Claim C5: on a valid input of length N, `forward` with orthonormal
normalization returns the normalization-none result with element 0 scaled by
1/√(4N) and every element k > 0 scaled by 1/√(2N). -/
theorem forward_orthonormal_scaling (x : List ℝ) (hx : x ≠ []) :
    ∃ u v, forward (finList x) Normalization.none = .ok u
      ∧ forward (finList x) Normalization.orthonormal = .ok v
      ∧ v.length = u.length
      ∧ ∀ k, k < u.length → v.getD k 0
          = (if k = 0 then 1 / Real.sqrt (4 * x.length) else 1 / Real.sqrt (2 * x.length))
            * u.getD k 0 := by
  have hv := validInput_finList x hx
  refine ⟨forwardCore x, applyNorm Normalization.orthonormal (forwardCore x), ?_, ?_, ?_, ?_⟩
  · rw [forward_ok_of_valid _ _ hv, finList_map_toReal]
    rfl
  · rw [forward_ok_of_valid _ _ hv, finList_map_toReal]
  · rw [applyNorm_length]
  · intro k hk
    have hlen := forwardCore_length x
    have e : applyNorm Normalization.orthonormal (forwardCore x)
        = (List.range (forwardCore x).length).map
            (fun j => orthScale (forwardCore x).length j * (forwardCore x).getD j 0) := rfl
    rw [e, hlen, getD_map_range _ _ k (by rw [← hlen]; exact hk)]
    rfl

/-- Witness for C5 at the concrete input [1]. -/
theorem forward_orthonormal_scaling_witness :
    ∃ u v, forward (finList [(1 : ℝ)]) Normalization.none = .ok u
      ∧ forward (finList [(1 : ℝ)]) Normalization.orthonormal = .ok v
      ∧ v.length = u.length
      ∧ ∀ k, k < u.length → v.getD k 0
          = (if k = 0 then 1 / Real.sqrt (4 * [(1 : ℝ)].length)
             else 1 / Real.sqrt (2 * [(1 : ℝ)].length)) * u.getD k 0 :=
  forward_orthonormal_scaling [(1 : ℝ)] (by simp)

/-- Claim C10: the script's single transform call runs on `np.arange(8192)`,
which is non-empty and all-finite, so the engine's validity precondition holds
and the error branch is unreachable for the script's computation. -/
theorem script_input_never_errors :
    scriptInput ≠ []
    ∧ (∀ v ∈ scriptInput, v.isFinite = true)
    ∧ (∃ y, forward scriptInput Normalization.none = .ok y)
    ∧ ∀ e, forward scriptInput Normalization.none ≠ .error e := by
  have hne : scriptInput ≠ [] := by
    rw [scriptInput]
    intro h
    have hlen := congrArg List.length h
    simp at hlen
  have hfin : ∀ v ∈ scriptInput, v.isFinite = true := by
    intro v hv
    rw [scriptInput] at hv
    rcases List.mem_map.mp hv with ⟨n, _, rfl⟩
    rfl
  have hv : validInput scriptInput = true := (validInput_iff _).mpr ⟨hne, hfin⟩
  refine ⟨hne, hfin, ⟨_, forward_ok_of_valid _ _ hv⟩, ?_⟩
  intro e he
  rw [forward_ok_of_valid _ _ hv] at he
  cases he

/-! ### Concrete evaluations -/

lemma sum_ones_cos (k : ℕ) :
    ∑ n ∈ Finset.range 4, [(1 : ℝ), 1, 1, 1].getD n 0 * Real.cos (dctAngle 4 k n)
      = ∑ n ∈ Finset.range 4, Real.cos (dctAngle 4 k n) := by
  refine Finset.sum_congr rfl fun n hn => ?_
  have hn4 := Finset.mem_range.mp hn
  interval_cases n <;> simp

lemma forwardCore_four_ones : forwardCore [(1 : ℝ), 1, 1, 1] = [8, 0, 0, 0] := by
  rw [forwardCore]
  rw [show [(1 : ℝ), 1, 1, 1].length = 4 from rfl]
  rw [show List.range 4 = [0, 1, 2, 3] from rfl]
  simp only [List.map_cons, List.map_nil]
  have h0 : (2 : ℝ) * ∑ n ∈ Finset.range 4,
      [(1 : ℝ), 1, 1, 1].getD n 0 * Real.cos (dctAngle 4 0 n) = 8 := by
    rw [sum_ones_cos 0]
    have hone : ∀ n ∈ Finset.range 4, Real.cos (dctAngle 4 0 n) = 1 := by
      intro n _
      rw [dctAngle_zero_k, Real.cos_zero]
    rw [Finset.sum_congr rfl hone]
    norm_num
  have hks : ∀ k : ℕ, 0 < k → k < 8 →
      (2 : ℝ) * ∑ n ∈ Finset.range 4,
        [(1 : ℝ), 1, 1, 1].getD n 0 * Real.cos (dctAngle 4 k n) = 0 := by
    intro k hk1 hk2
    rw [sum_ones_cos k, sum_cos_dctAngle_eq_zero 4 k (by norm_num) hk1 (by omega)]
    ring
  rw [h0, hks 1 one_pos (by norm_num), hks 2 (by norm_num) (by norm_num),
    hks 3 (by norm_num) (by norm_num)]

/-- Claim C8: `forward([1,1,1,1], none)` returns exactly [8, 0, 0, 0] — a
constant input collapses to the DC term. -/
theorem forward_four_ones :
    forward (finList [(1 : ℝ), 1, 1, 1]) Normalization.none = .ok [8, 0, 0, 0] := by
  rw [forward_ok_of_valid _ _ (validInput_finList _ (by simp)), finList_map_toReal]
  rw [show applyNorm Normalization.none (forwardCore [(1 : ℝ), 1, 1, 1])
      = forwardCore [(1 : ℝ), 1, 1, 1] from rfl]
  rw [forwardCore_four_ones]

/-! ### Linearity -/

lemma zipWith_getD (f : ℝ → ℝ → ℝ) (x y : List ℝ) (n : ℕ)
    (hx : n < x.length) (hy : n < y.length) :
    (List.zipWith f x y).getD n 0 = f (x.getD n 0) (y.getD n 0) := by
  induction x generalizing y n with
  | nil => simp at hx
  | cons a t ih =>
    cases y with
    | nil => simp at hy
    | cons b u =>
      cases n with
      | zero => rfl
      | succ n =>
        simp only [List.zipWith_cons_cons, List.getD_cons_succ]
        exact ih u n (by simpa using hx) (by simpa using hy)

lemma forwardCore_linear (a b : ℝ) (x y : List ℝ) (hlen : x.length = y.length)
    (k : ℕ) (hk : k < x.length) :
    (forwardCore (List.zipWith (fun p q => a * p + b * q) x y)).getD k 0
      = a * (forwardCore x).getD k 0 + b * (forwardCore y).getD k 0 := by
  set z := List.zipWith (fun p q => a * p + b * q) x y with hz
  have hzlen : z.length = x.length := by
    rw [hz, List.length_zipWith, hlen, min_self]
  have hsum : ∑ n ∈ Finset.range x.length, z.getD n 0 * Real.cos (dctAngle x.length k n)
      = a * ∑ n ∈ Finset.range x.length, x.getD n 0 * Real.cos (dctAngle x.length k n)
        + b * ∑ n ∈ Finset.range x.length, y.getD n 0 * Real.cos (dctAngle x.length k n) := by
    rw [Finset.mul_sum, Finset.mul_sum, ← Finset.sum_add_distrib]
    refine Finset.sum_congr rfl fun n hn => ?_
    rw [hz, zipWith_getD _ x y n (Finset.mem_range.mp hn) (hlen ▸ Finset.mem_range.mp hn)]
    ring
  rw [forwardCore_getD z k (by rw [hzlen]; exact hk), forwardCore_getD x k hk,
    forwardCore_getD y k (by rw [← hlen]; exact hk), hzlen, ← hlen, hsum]
  ring

/-- Claim C7: linearity — for scalars a, b and equal-length non-empty sequences x
and y of finite reals, forward(a·x + b·y) equals a·forward(x) + b·forward(y)
elementwise, in every normalization mode. -/
theorem forward_linear (a b : ℝ) (x y : List ℝ) (m : Normalization)
    (hlen : x.length = y.length) (hne : x ≠ []) :
    ∃ u v w, forward (finList x) m = .ok u ∧ forward (finList y) m = .ok v
      ∧ forward (finList (List.zipWith (fun p q => a * p + b * q) x y)) m = .ok w
      ∧ w.length = x.length
      ∧ ∀ k, k < x.length → w.getD k 0 = a * u.getD k 0 + b * v.getD k 0 := by
  set z := List.zipWith (fun p q => a * p + b * q) x y with hz
  have hzlen : z.length = x.length := by
    rw [hz, List.length_zipWith, hlen, min_self]
  have hyne : y ≠ [] := by
    intro h
    rw [h] at hlen
    exact hne (List.length_eq_zero.mp hlen)
  have hzne : z ≠ [] := by
    intro h
    rw [h] at hzlen
    exact hne (List.length_eq_zero.mp hzlen.symm)
  refine ⟨applyNorm m (forwardCore x), applyNorm m (forwardCore y), applyNorm m (forwardCore z),
    ?_, ?_, ?_, ?_, ?_⟩
  · rw [forward_ok_of_valid _ _ (validInput_finList x hne), finList_map_toReal]
  · rw [forward_ok_of_valid _ _ (validInput_finList y hyne), finList_map_toReal]
  · rw [forward_ok_of_valid _ _ (validInput_finList z hzne), finList_map_toReal]
  · rw [applyNorm_length, forwardCore_length, hzlen]
  · intro k hk
    cases m with
    | none =>
      rw [show ∀ l : List ℝ, applyNorm Normalization.none l = l from fun l => rfl]
      exact forwardCore_linear a b x y hlen k hk
    | orthonormal =>
      have hax : applyNorm Normalization.orthonormal (forwardCore x)
          = (List.range (forwardCore x).length).map
              (fun j => orthScale (forwardCore x).length j * (forwardCore x).getD j 0) := rfl
      have hay : applyNorm Normalization.orthonormal (forwardCore y)
          = (List.range (forwardCore y).length).map
              (fun j => orthScale (forwardCore y).length j * (forwardCore y).getD j 0) := rfl
      have haz : applyNorm Normalization.orthonormal (forwardCore z)
          = (List.range (forwardCore z).length).map
              (fun j => orthScale (forwardCore z).length j * (forwardCore z).getD j 0) := rfl
      rw [hax, hay, haz, forwardCore_length, forwardCore_length, forwardCore_length,
        hzlen, ← hlen]
      rw [getD_map_range _ _ k hk, getD_map_range _ _ k hk, getD_map_range _ _ k hk]
      rw [forwardCore_linear a b x y hlen k hk]
      ring

/-- Witness for C7 at a = 1, b = 2, x = [3], y = [4], mode none. -/
theorem forward_linear_witness :
    ∃ u v w, forward (finList [(3 : ℝ)]) Normalization.none = .ok u
      ∧ forward (finList [(4 : ℝ)]) Normalization.none = .ok v
      ∧ forward (finList (List.zipWith (fun p q => 1 * p + 2 * q) [(3 : ℝ)] [(4 : ℝ)]))
          Normalization.none = .ok w
      ∧ w.length = [(3 : ℝ)].length
      ∧ ∀ k, k < [(3 : ℝ)].length → w.getD k 0 = 1 * u.getD k 0 + 2 * v.getD k 0 :=
  forward_linear 1 2 [(3 : ℝ)] [(4 : ℝ)] Normalization.none rfl (by simp)

/-! ### Round trip -/

lemma getD_eq_getElem_of_lt (l : List ℝ) (n : ℕ) (h : n < l.length) :
    l.getD n 0 = l[n] := by
  rw [List.getD_eq_getElem?_getD, List.getElem?_eq_getElem h]
  rfl

lemma orthScale_ne_zero (N k : ℕ) (hN : 0 < N) : orthScale N k ≠ 0 := by
  have hN' : (0 : ℝ) < N := by exact_mod_cast hN
  rw [orthScale]
  split_ifs
  · have h4 : (0 : ℝ) < Real.sqrt (4 * N) := Real.sqrt_pos.mpr (by nlinarith)
    exact one_div_ne_zero (ne_of_gt h4)
  · have h2 : (0 : ℝ) < Real.sqrt (2 * N) := Real.sqrt_pos.mpr (by nlinarith)
    exact one_div_ne_zero (ne_of_gt h2)

lemma undoNorm_applyNorm (m : Normalization) (w : List ℝ) (hw : 0 < w.length) :
    undoNorm m (applyNorm m w) = w := by
  cases m with
  | none => rfl
  | orthonormal =>
    have hlen : (applyNorm Normalization.orthonormal w).length = w.length :=
      applyNorm_length _ w
    have hu : undoNorm Normalization.orthonormal (applyNorm Normalization.orthonormal w)
        = (List.range (applyNorm Normalization.orthonormal w).length).map
            (fun k => (applyNorm Normalization.orthonormal w).getD k 0
              / orthScale (applyNorm Normalization.orthonormal w).length k) := rfl
    have ha : applyNorm Normalization.orthonormal w
        = (List.range w.length).map (fun k => orthScale w.length k * w.getD k 0) := rfl
    rw [hu, hlen]
    refine List.ext_getElem (by simp) fun i h1 h2 => ?_
    have hi : i < w.length := h2
    rw [List.getElem_map, List.getElem_range]
    rw [ha, getD_map_range _ _ i hi, mul_comm, mul_div_assoc,
      div_self (orthScale_ne_zero w.length i hw), mul_one]
    exact getD_eq_getElem_of_lt w i hi

lemma inverse_forward_core (x : List ℝ) (m : Normalization) (hx : x ≠ []) :
    ∃ y, forward (finList x) m = .ok y
      ∧ inverse (finList y) m = .ok (inverseCore (forwardCore x)) := by
  have hxlen : 0 < x.length := List.length_pos.mpr hx
  have hwlen : 0 < (forwardCore x).length := by
    rw [forwardCore_length]
    exact hxlen
  refine ⟨applyNorm m (forwardCore x), ?_, ?_⟩
  · rw [forward_ok_of_valid _ _ (validInput_finList x hx), finList_map_toReal]
  · have hyne : applyNorm m (forwardCore x) ≠ [] := by
      intro h
      have h0 := congrArg List.length h
      rw [applyNorm_length, forwardCore_length, List.length_nil] at h0
      omega
    rw [inverse_ok_of_valid _ _ (validInput_finList _ hyne), finList_map_toReal,
      undoNorm_applyNorm m (forwardCore x) hwlen]

/-- Amended claim C2: with matching normalization modes, `inverse ∘ forward` is
exact but returns N·x, not x — the spec's inverse formula lacks the 1/N factor
needed to make the round trip the identity. -/
theorem roundtrip_scaled_by_length (x : List ℝ) (m : Normalization) (hx : x ≠ []) :
    ∃ y z, forward (finList x) m = .ok y ∧ inverse (finList y) m = .ok z
      ∧ z.length = x.length
      ∧ ∀ n, n < x.length → z.getD n 0 = (x.length : ℝ) * x.getD n 0 := by
  have hxlen : 0 < x.length := List.length_pos.mpr hx
  obtain ⟨y, hfy, hiz⟩ := inverse_forward_core x m hx
  refine ⟨y, inverseCore (forwardCore x), hfy, hiz, ?_, ?_⟩
  · rw [inverseCore_length, forwardCore_length]
  · intro n hn
    rw [inverseCore_forwardCore x hxlen, getD_map_range _ _ n hn]

/-- Witness for the amended C2 at x = [5] in orthonormal mode: the round trip
returns 1 · [5] = [5]. -/
theorem roundtrip_scaled_by_length_witness :
    ∃ y z, forward (finList [(5 : ℝ)]) Normalization.orthonormal = .ok y
      ∧ inverse (finList y) Normalization.orthonormal = .ok z
      ∧ z.length = [(5 : ℝ)].length
      ∧ ∀ n, n < [(5 : ℝ)].length → z.getD n 0 = ([(5 : ℝ)].length : ℝ) * [(5 : ℝ)].getD n 0 :=
  roundtrip_scaled_by_length [(5 : ℝ)] Normalization.orthonormal (by simp)

lemma forwardCore_pair_const (c : ℝ) : forwardCore [c, c] = [4 * c, 0] := by
  rw [forwardCore, show [c, c].length = 2 from rfl, show List.range 2 = [0, 1] from rfl]
  simp only [List.map_cons, List.map_nil]
  have hsum : ∀ k : ℕ, ∑ n ∈ Finset.range 2, [c, c].getD n 0 * Real.cos (dctAngle 2 k n)
      = c * ∑ n ∈ Finset.range 2, Real.cos (dctAngle 2 k n) := by
    intro k
    rw [Finset.mul_sum]
    refine Finset.sum_congr rfl fun n hn => ?_
    have := Finset.mem_range.mp hn
    interval_cases n <;> simp
  have h0 : (2 : ℝ) * ∑ n ∈ Finset.range 2,
      [c, c].getD n 0 * Real.cos (dctAngle 2 0 n) = 4 * c := by
    rw [hsum 0]
    have hone : ∀ n ∈ Finset.range 2, Real.cos (dctAngle 2 0 n) = 1 := fun n _ => by
      rw [dctAngle_zero_k, Real.cos_zero]
    rw [Finset.sum_congr rfl hone]
    simp
    ring
  have h1 : (2 : ℝ) * ∑ n ∈ Finset.range 2,
      [c, c].getD n 0 * Real.cos (dctAngle 2 1 n) = 0 := by
    rw [hsum 1, sum_cos_dctAngle_eq_zero 2 1 (by norm_num) one_pos (by norm_num)]
    ring
  rw [h0, h1]

lemma inverseCore_pair_dc (c : ℝ) : inverseCore [c, 0] = [c / 2, c / 2] := by
  rw [inverseCore, show [c, (0 : ℝ)].length = 2 from rfl,
    show List.range 2 = [0, 1] from rfl]
  simp only [List.map_cons, List.map_nil]
  have hsum : ∀ n : ℕ,
      ∑ k ∈ Finset.Ico 1 2, [c, (0 : ℝ)].getD k 0 * Real.cos (dctAngle 2 k n) = 0 := by
    intro n
    rw [show Finset.Ico 1 2 = {1} by decide]
    simp
  rw [hsum 0, hsum 1]
  norm_num

/-- Counterexample to claim C2: for x = [1, 1] and mode none, the round trip
returns [2, 2], which is not within 1e-9 relative tolerance of x. -/
theorem roundtrip_tolerance_violation :
    ∃ y z, forward (finList [(1 : ℝ), 1]) Normalization.none = .ok y
      ∧ inverse (finList y) Normalization.none = .ok z
      ∧ z.getD 0 0 = 2 ∧ [(1 : ℝ), 1].getD 0 0 = 1
      ∧ ¬ approxRel (z.getD 0 0) ([(1 : ℝ), 1].getD 0 0) := by
  refine ⟨[4, 0], [2, 2], ?_, ?_, rfl, rfl, ?_⟩
  · rw [forward_ok_of_valid _ _ (validInput_finList _ (by simp)), finList_map_toReal]
    rw [show applyNorm Normalization.none (forwardCore [(1 : ℝ), 1])
        = forwardCore [(1 : ℝ), 1] from rfl]
    rw [forwardCore_pair_const 1]
    norm_num
  · rw [inverse_ok_of_valid _ _ (validInput_finList _ (by simp)), finList_map_toReal]
    rw [show undoNorm Normalization.none [(4 : ℝ), 0] = [(4 : ℝ), 0] from rfl]
    rw [inverseCore_pair_dc 4]
    norm_num
  · intro h
    rw [show ([(2 : ℝ), 2].getD 0 0) = 2 from rfl,
      show ([(1 : ℝ), 1].getD 0 0) = 1 from rfl] at h
    rw [approxRel] at h
    rw [show |(2 : ℝ) - 1| = 1 by norm_num, show |(1 : ℝ)| = 1 by norm_num] at h
    norm_num at h

/-- Amended claim C6: for a valid input and mode none, the n-th element of
`inverse` equals sequence[0]/2 + Σ over k in [1, N) of
sequence[k] · cos( π · k · (2n+1) / (2N) ); composed with `forward` this yields
N·x rather than x (the stated formula omits the 1/N factor an exact inverse
would need). -/
theorem inverse_none_formula (x : List ℝ) (hx : x ≠ []) :
    (∃ z, inverse (finList x) Normalization.none = .ok z ∧ z.length = x.length
      ∧ ∀ n, n < x.length → z.getD n 0
          = x.getD 0 0 / 2 + ∑ k ∈ Finset.Ico 1 x.length,
              x.getD k 0 * Real.cos (π * k * (2 * n + 1) / (2 * x.length)))
    ∧ ∀ n, n < x.length →
        (inverseCore (forwardCore x)).getD n 0 = (x.length : ℝ) * x.getD n 0 := by
  have hxlen : 0 < x.length := List.length_pos.mpr hx
  constructor
  · refine ⟨inverseCore x, ?_, inverseCore_length x, ?_⟩
    · rw [inverse_ok_of_valid _ _ (validInput_finList x hx), finList_map_toReal]
      rfl
    · intro n hn
      rw [inverseCore_getD x n hn]
      rfl
  · intro n hn
    rw [inverseCore_forwardCore x hxlen, getD_map_range _ _ n hn]

/-- Witness for the amended C6 at x = [5]. -/
theorem inverse_none_formula_witness :
    (∃ z, inverse (finList [(5 : ℝ)]) Normalization.none = .ok z
      ∧ z.length = [(5 : ℝ)].length
      ∧ ∀ n, n < [(5 : ℝ)].length → z.getD n 0
          = [(5 : ℝ)].getD 0 0 / 2 + ∑ k ∈ Finset.Ico 1 [(5 : ℝ)].length,
              [(5 : ℝ)].getD k 0 * Real.cos (π * k * (2 * n + 1) / (2 * [(5 : ℝ)].length)))
    ∧ ∀ n, n < [(5 : ℝ)].length →
        (inverseCore (forwardCore [(5 : ℝ)])).getD n 0
          = ([(5 : ℝ)].length : ℝ) * [(5 : ℝ)].getD n 0 :=
  inverse_none_formula [(5 : ℝ)] (by simp)

/-- Counterexample to claim C6's final clause: for x = [2, 2] and mode none,
inverse(forward(x)) = [4, 4] ≠ x — the forward scaling is not undone. -/
theorem inverse_forward_not_identity :
    ∃ y z, forward (finList [(2 : ℝ), 2]) Normalization.none = .ok y
      ∧ inverse (finList y) Normalization.none = .ok z
      ∧ z = [4, 4] ∧ z ≠ [(2 : ℝ), 2]
      ∧ ¬ approxRel (z.getD 0 0) ([(2 : ℝ), 2].getD 0 0) := by
  have hfwd : forward (finList [(2 : ℝ), 2]) Normalization.none = .ok [8, 0] := by
    rw [forward_ok_of_valid _ _ (validInput_finList _ (by simp)), finList_map_toReal]
    rw [show applyNorm Normalization.none (forwardCore [(2 : ℝ), 2])
        = forwardCore [(2 : ℝ), 2] from rfl]
    rw [forwardCore_pair_const 2]
    norm_num
  have hinv : inverse (finList [(8 : ℝ), 0]) Normalization.none = .ok [4, 4] := by
    rw [inverse_ok_of_valid _ _ (validInput_finList _ (by simp)), finList_map_toReal]
    rw [show undoNorm Normalization.none [(8 : ℝ), 0] = [(8 : ℝ), 0] from rfl]
    rw [inverseCore_pair_dc 8]
    norm_num
  refine ⟨[8, 0], [4, 4], hfwd, hinv, rfl, ?_, ?_⟩
  · intro h
    injection h with h1 h2
    norm_num at h1
  · intro h
    rw [show ([(4 : ℝ), 4].getD 0 0) = 4 from rfl,
      show ([(2 : ℝ), 2].getD 0 0) = 2 from rfl] at h
    rw [approxRel] at h
    rw [show |(4 : ℝ) - 2| = 2 by norm_num, show |(2 : ℝ)| = 2 by norm_num] at h
    norm_num at h
